import Mathlib

/-!
Shallow embedding of `src/linuxmodule/proclikefs.c` — the proclikefs
driver-table decommissioning core ("allow file systems to be unmounted
even while active").  The embedding follows the `LINUX_VERSION_CODE >=
KERNEL_VERSION(2,6,16)` branch of every `#if` in the source.  Spinlocks
are not modelled: the state-passing functions below are the sequential
semantics that the `fslist_lock` / per-`pfs` lock enforce.  Kernel
collaborators outside this repository (`register_filesystem`,
`unregister_filesystem`, `try_module_get` success, the VFS maintenance
of `fs.fs_supers`, the `sb->s_files` open-file list) are noted at their
use sites.
-/

/-- Value held by one dispatch slot of an operation table: a null
function pointer, a driver-supplied function (identified by a number),
the `return_EIO` poison stub (proclikefs.c line 310), or the
`proclikefs_null_root_lookup` stub (line 103, returns `-ENOENT`). -/
inductive SlotVal where
  | null
  | driver (n : Nat)
  | eio
  | nullRootLookup
deriving DecidableEq

/-- Outcome of dispatching through a slot.  `return_EIO` yields `-EIO`,
which the specification calls `NotSupported`; a null pointer means the
operation is absent; `proclikefs_null_root_lookup` fails with
`-ENOENT`. -/
inductive DispatchResult where
  | notSupported
  | notPresent
  | driverCall (n : Nat)
  | enoent
deriving DecidableEq

/-- Dispatch through a slot value. -/
def dispatchSlot : SlotVal → DispatchResult
  | .eio => .notSupported
  | .null => .notPresent
  | .driver n => .driverCall n
  | .nullRootLookup => .enoent

/-- The `struct file_operations` slots that proclikefs.c manipulates
(the assignments at lines 333-358, `>= 2.6.0` branch included). -/
inductive FileSlot where
  | llseek | read | write | readdir | poll | ioctl | mmap | open_
  | flush | release | fsync | fasync | lock | readv | writev
  | sendpage | get_unmapped_area
  | aio_read | aio_write | unlocked_ioctl | compat_ioctl | aio_fsync
  | sendfile | check_flags | flock
deriving DecidableEq, Fintype

/-- The `struct inode_operations` slots that proclikefs.c manipulates
(the assignments at lines 364-390, `>= 2.6.16` branch). -/
inductive InodeSlot where
  | create | lookup | link | unlink | symlink | mkdir | rmdir | mknod
  | rename | readlink | follow_link | truncate | permission
  | setattr | getattr | setxattr | getxattr | listxattr | removexattr
  | put_link
deriving DecidableEq, Fintype

/-- Contents of a `struct file_operations`. -/
def FileOps := FileSlot → SlotVal

/-- Contents of a `struct inode_operations`. -/
def InodeOps := InodeSlot → SlotVal

/-- `memset(&pfo->pfo_op, 0, sizeof(struct file_operations))`
(proclikefs.c line 496). -/
def zeroFileOps : FileOps := fun _ => .null

/-- `memset(&pio->pio_op, 0, sizeof(struct inode_operations))`
(proclikefs.c line 511). -/
def zeroInodeOps : InodeOps := fun _ => .null

/-- The file-operations poisoning loop body of
`proclikefs_unregister_filesystem` (lines 331-360): every slot the
source names is assigned `return_EIO`. -/
def poisonFileOps (_fo : FileOps) : FileOps := fun s =>
  match s with
  | .llseek => .eio
  | .read => .eio
  | .write => .eio
  | .readdir => .eio
  | .poll => .eio
  | .ioctl => .eio
  | .mmap => .eio
  | .open_ => .eio
  | .flush => .eio
  | .release => .eio
  | .fsync => .eio
  | .fasync => .eio
  | .lock => .eio
  | .readv => .eio
  | .writev => .eio
  | .sendpage => .eio
  | .get_unmapped_area => .eio
  | .aio_read => .eio
  | .aio_write => .eio
  | .unlocked_ioctl => .eio
  | .compat_ioctl => .eio
  | .aio_fsync => .eio
  | .sendfile => .eio
  | .check_flags => .eio
  | .flock => .eio

/-- The inode-operations poisoning loop body of
`proclikefs_unregister_filesystem` (lines 362-394): every slot is
assigned `return_EIO` except `follow_link`, which the `>= 2.6.16`
branch clears to the null pointer (`io->follow_link = 0`, line 375). -/
def poisonInodeOps (_io : InodeOps) : InodeOps := fun s =>
  match s with
  | .create => .eio
  | .lookup => .eio
  | .link => .eio
  | .unlink => .eio
  | .symlink => .eio
  | .mkdir => .eio
  | .rmdir => .eio
  | .mknod => .eio
  | .rename => .eio
  | .readlink => .eio
  | .follow_link => .null
  | .truncate => .eio
  | .permission => .eio
  | .setattr => .eio
  | .getattr => .eio
  | .setxattr => .eio
  | .getxattr => .eio
  | .listxattr => .eio
  | .removexattr => .eio
  | .put_link => .eio

/-- `proclikefs_null_root_inode_operations`: a statically zeroed
`struct inode_operations` whose `lookup` slot alone is set, by
`init_module` (line 526), to `proclikefs_null_root_lookup`. -/
def nullRootInodeOperations : InodeOps := fun s =>
  match s with
  | .lookup => .nullRootLookup
  | _ => .null

example : dispatchSlot (poisonFileOps zeroFileOps .read) = .notSupported := by decide
example : poisonInodeOps zeroInodeOps .follow_link = .null := by decide

/-!
Dentry trees and the quiescence walk of `proclikefs_kill_super`
(lines 228-296).  A dentry carries its `d_op` dispatch hook (`hook`),
its hash-table membership (`hashed`; `d_drop` unhashes a dentry, which
is how the walk detaches a child from the lookup path of its parent),
and its `d_subdirs` child list.  The `d_fsdata` worklist threading of
the source (a stack of dentry pointers linked through `d_fsdata`) is
rendered as an explicit `List Dentry` worklist.
-/

/-- A dentry: identifier, `d_op` hook present?, hashed?, children. -/
inductive Dentry where
  | node (id : Nat) (hook : Bool) (hashed : Bool) (children : List Dentry)

/-- Identifier of a dentry. -/
def topId : Dentry → Nat
  | .node i _ _ _ => i

/-- Effect of `d_drop(child)` (line 285): the child is unhashed; its
hook and subtree are untouched. -/
def dropD : Dentry → Dentry
  | .node i hk _ cs => .node i hk false cs

mutual

/-- Number of dentries in a tree. -/
def dsize : Dentry → Nat
  | .node _ _ _ cs => 1 + lsize cs

/-- Number of dentries in a forest. -/
def lsize : List Dentry → Nat
  | [] => 0
  | c :: cs => dsize c + lsize cs

end

mutual

/-- Per-node state records `(id, hook, hashed)` of a tree, root first. -/
def treeStates : Dentry → List (Nat × Bool × Bool)
  | .node i hk hsh cs => (i, hk, hsh) :: listStates cs

/-- Per-node state records of a forest. -/
def listStates : List Dentry → List (Nat × Bool × Bool)
  | [] => []
  | c :: cs => treeStates c ++ listStates cs

end

mutual

/-- Clear the hook and unhash every node of a tree: the net per-node
effect of the walk on a subtree all of whose members pass through
`d_drop` and the `active->d_op = 0` step. -/
def clearAllD : Dentry → Dentry
  | .node i _ _ cs => .node i false false (clearAllL cs)

/-- `clearAllD` on every tree of a forest. -/
def clearAllL : List Dentry → List Dentry
  | [] => []
  | c :: cs => clearAllD c :: clearAllL cs

end

/-- Net effect of the walk on the root: hook cleared (the root is the
first popped `active`, line 274), hash membership kept (`Do not
d_drop(root)`, line 267), every descendant fully cleared. -/
def clearKeepHash : Dentry → Dentry
  | .node i _ hsh cs => .node i false hsh (clearAllL cs)

/-- All identifiers of a tree. -/
def allIds (t : Dentry) : List Nat := (treeStates t).map (·.1)

theorem dsize_dropD (c : Dentry) : dsize (dropD c) = dsize c := by
  cases c; simp [dropD, dsize]

theorem lsize_append (a b : List Dentry) :
    lsize (a ++ b) = lsize a + lsize b := by
  induction a with
  | nil => simp [lsize]
  | cons c cs ih => simp [lsize, ih]; omega

theorem lsize_reverse (a : List Dentry) : lsize a.reverse = lsize a := by
  induction a with
  | nil => rfl
  | cons c cs ih => simp [lsize, List.reverse_cons, lsize_append, ih]; omega

theorem lsize_map_dropD (a : List Dentry) : lsize (a.map dropD) = lsize a := by
  induction a with
  | nil => rfl
  | cons c cs ih => simp [lsize, ih, dsize_dropD]

theorem dsize_pos (t : Dentry) : 0 < dsize t := by
  cases t; simp [dsize]

/-- The dentry-killing loop of `proclikefs_kill_super` (lines 270-289),
run on a worklist.  Popping `active`: clear its hook (`active->d_op =
0`) and emit its final state record; then for each child of `active`,
in `d_subdirs` order, `d_drop` it (recorded in the second component)
and push it on the front of the worklist — so the children end up on
the worklist in reverse order, ahead of the remaining entries.  Returns
(final state records in pop order, dropped identifiers in drop order). -/
def killWalk : List Dentry → List (Nat × Bool × Bool) × List Nat
  | [] => ([], [])
  | .node i _ hsh cs :: rest =>
    let r := killWalk ((cs.map dropD).reverse ++ rest)
    ((i, false, hsh) :: r.1, cs.map topId ++ r.2)
termination_by ws => lsize ws
decreasing_by
  simp [lsize, lsize_append, lsize_reverse, lsize_map_dropD, dsize]

example :
    killWalk [.node 0 true true [.node 1 true true [], .node 2 true true []]] =
      ([(0, false, true), (2, false, false), (1, false, false)], [1, 2]) := by
  simp [killWalk, dropD, topId]

/-- Strong induction over forests by total dentry count. -/
theorem lsize_induction (Q : List Dentry → Prop)
    (h : ∀ l, (∀ l', lsize l' < lsize l → Q l') → Q l) : ∀ l, Q l := by
  have key : ∀ n l, lsize l ≤ n → Q l := by
    intro n
    induction n with
    | zero =>
      intro l hl
      exact h l (fun l' hl' => absurd (Nat.lt_of_lt_of_le hl' hl) (Nat.not_lt_zero _))
    | succ n ih =>
      intro l hl
      exact h l (fun l' hl' => ih l' (by omega))
  exact fun l => key (lsize l) l le_rfl

theorem listStates_append (a b : List Dentry) :
    listStates (a ++ b) = listStates a ++ listStates b := by
  induction a with
  | nil => simp [listStates]
  | cons c cs ih => simp [listStates, ih]

theorem clearAllL_eq_map (l : List Dentry) : clearAllL l = l.map clearAllD := by
  induction l with
  | nil => rfl
  | cons c cs ih => simp [clearAllL, ih]

theorem clearKeepHash_dropD (c : Dentry) :
    clearKeepHash (dropD c) = clearAllD c := by
  cases c; simp [dropD, clearKeepHash, clearAllD]

theorem topId_dropD (c : Dentry) : topId (dropD c) = topId c := by
  cases c; simp [dropD, topId]

theorem listStates_join (l : List Dentry) :
    listStates l = (l.map treeStates).flatten := by
  induction l with
  | nil => rfl
  | cons c cs ih => simp [listStates, ih]

theorem listStates_perm (a b : List Dentry) (h : a.Perm b) :
    (listStates a).Perm (listStates b) := by
  rw [listStates_join, listStates_join]
  exact (h.map treeStates).flatten

theorem multiset_coe_cons {α : Type} (y : α) (l : List α) :
    ((y :: l : List α) : Multiset α) = {y} + ↑l := rfl

/-- Unfolding equation of `killWalk` at a non-empty worklist. -/
theorem killWalk_cons (i : Nat) (hk hsh : Bool) (cs rest : List Dentry) :
    killWalk (.node i hk hsh cs :: rest) =
      ((i, false, hsh) :: (killWalk ((cs.map dropD).reverse ++ rest)).1,
       cs.map topId ++ (killWalk ((cs.map dropD).reverse ++ rest)).2) := by
  rw [killWalk]

theorem clearAllL_map_dropD (cs : List Dentry) :
    (cs.map dropD).map clearKeepHash = clearAllL cs := by
  rw [List.map_map, clearAllL_eq_map]
  have h : clearKeepHash ∘ dropD = clearAllD := funext clearKeepHash_dropD
  rw [h]

/-- The state records emitted by the dentry walk are, up to order,
exactly the per-node states of the worklist's trees after the net
transformation (`clearKeepHash` at each worklist root — hook cleared at
pop, hash kept — and full clearing below, since every descendant passes
through `d_drop` on enqueue). -/
theorem killWalk_states (ws : List Dentry) :
    (killWalk ws).1.Perm (listStates (ws.map clearKeepHash)) := by
  induction ws using lsize_induction with
  | _ ws ih =>
    match ws with
    | [] => simp [killWalk, listStates]
    | .node i hk hsh cs :: rest =>
      have hlt : lsize ((cs.map dropD).reverse ++ rest)
          < lsize (Dentry.node i hk hsh cs :: rest) := by
        simp [lsize, dsize, lsize_append, lsize_reverse, lsize_map_dropD]
      have IH := ih _ hlt
      rw [killWalk_cons]
      simp only [List.map_cons, listStates, clearKeepHash]
      refine List.Perm.cons _ ?_
      refine IH.trans ?_
      rw [List.map_append, listStates_append]
      refine List.Perm.append ?_ (List.Perm.refl _)
      rw [List.map_reverse, clearAllL_map_dropD]
      exact listStates_perm _ _ (List.reverse_perm _)

/-- Every dentry that the walk drops (`d_drop`) is one it also visits,
and together the dropped dentries and the initial worklist roots
account, up to order, for exactly the visited dentries: every node is
enqueued (and hence dropped) exactly once per discovery event. -/
theorem killWalk_drops (ws : List Dentry) :
    ((killWalk ws).2 ++ ws.map topId).Perm ((killWalk ws).1.map Prod.fst) := by
  induction ws using lsize_induction with
  | _ ws ih =>
    match ws with
    | [] => simp [killWalk]
    | .node i hk hsh cs :: rest =>
      have hlt : lsize ((cs.map dropD).reverse ++ rest)
          < lsize (Dentry.node i hk hsh cs :: rest) := by
        simp [lsize, dsize, lsize_append, lsize_reverse, lsize_map_dropD]
      have IH := ih _ hlt
      rw [killWalk_cons]
      simp only [List.map_cons, topId, List.map_append]
      have hw : ((cs.map dropD).reverse ++ rest).map topId
          = (cs.map topId).reverse ++ rest.map topId := by
        rw [List.map_append, List.map_reverse, List.map_map]
        have h : topId ∘ dropD = topId := funext topId_dropD
        rw [h]
      rw [hw] at IH
      refine Multiset.coe_eq_coe.mp ?_
      have hIH := Multiset.coe_eq_coe.mpr IH
      simp only [← Multiset.coe_add, Multiset.coe_reverse, multiset_coe_cons] at hIH ⊢
      -- hIH : drops + (csT + restT) = visitedIds
      -- goal : (csT + drops) + ({i} + restT) = {i} + visitedIds
      rw [← hIH]
      abel

theorem listStates_clearAllL_ids (l : List Dentry) :
    (listStates (clearAllL l)).map Prod.fst = (listStates l).map Prod.fst := by
  induction l using lsize_induction with
  | _ l ih =>
    match l with
    | [] => rfl
    | .node i hk hsh cc :: cs =>
      have h1 := ih cc (by simp only [lsize, dsize]; omega)
      have h2 := ih cs (by simp only [lsize, dsize]; omega)
      simp [clearAllL, clearAllD, listStates, treeStates, listStates_append, h1, h2]

theorem listStates_clearAllL_flags (l : List Dentry) :
    ∀ s ∈ listStates (clearAllL l), s.2.1 = false ∧ s.2.2 = false := by
  induction l using lsize_induction with
  | _ l ih =>
    match l with
    | [] => intro s hs; simp [clearAllL, listStates] at hs
    | .node i hk hsh cc :: cs =>
      have h1 := ih cc (by simp only [lsize, dsize]; omega)
      have h2 := ih cs (by simp only [lsize, dsize]; omega)
      intro s hs
      simp only [clearAllL, clearAllD, listStates, treeStates, List.cons_append,
        List.mem_cons, List.mem_append] at hs
      rcases hs with h | h | h
      · simp [h]
      · exact h1 s h
      · exact h2 s h

theorem allIds_clearKeepHash (t : Dentry) :
    allIds (clearKeepHash t) = allIds t := by
  cases t with
  | node i hk hsh cs =>
    simp [clearKeepHash, allIds, treeStates, listStates_clearAllL_ids]

theorem clearAllL_idem (l : List Dentry) :
    clearAllL (clearAllL l) = clearAllL l := by
  induction l using lsize_induction with
  | _ l ih =>
    match l with
    | [] => rfl
    | .node i hk hsh cc :: cs =>
      have h1 := ih cc (by simp only [lsize, dsize]; omega)
      have h2 := ih cs (by simp only [lsize, dsize]; omega)
      simp [clearAllL, clearAllD, h1, h2]

theorem clearKeepHash_idem (t : Dentry) :
    clearKeepHash (clearKeepHash t) = clearKeepHash t := by
  cases t with
  | node i hk hsh cs => simp [clearKeepHash, clearAllL_idem]

/-!
Superblocks (the spec's Instances) and `proclikefs_kill_super`
(lines 228-296).  A superblock carries its `s_op` table (modelled by
whether it has been replaced by `proclikefs_null_super_operations`,
line 256), its root dentry tree `s_root`, and the root inode's `i_op`
table (line 292).  The `sb->s_files` loop (lines 236-241), which
repoints open files' `f_op` at the file-system's first owned table, is
not modelled: no claim concerns open-file handles.  The root dentry is
modelled as always present (`sb->s_root`; line 292 dereferences it
unconditionally).
-/

/-- A superblock: `s_op` nulled?, root dentry tree, root inode
operations. -/
structure SuperBlock where
  sopNull : Bool
  root : Dentry
  rootIop : InodeOps

/-- `proclikefs_kill_super` (lines 228-296): install the null
super-operations, run the dentry worklist walk from the root (root is
enqueued without `d_drop`, every other reachable dentry is dropped on
enqueue and has its `d_op` cleared on pop — net per-node effect
`clearKeepHash`, established by `killWalk_states`), and give the root
inode the minimal `proclikefs_null_root_inode_operations` set. -/
def proclikefs_kill_super (sb : SuperBlock) : SuperBlock :=
  { sopNull := true
    root := clearKeepHash sb.root
    rootIop := nullRootInodeOperations }

theorem proclikefs_kill_super_idem (sb : SuperBlock) :
    proclikefs_kill_super (proclikefs_kill_super sb) = proclikefs_kill_super sb := by
  simp [proclikefs_kill_super, clearKeepHash_idem]

/-!
Registry and registrations.  `struct proclikefs_file_system` (line 65)
is the spec's Registration; the static `fs_list` (line 76) is the
Registry; the module use count (`try_module_get` / `MOD_DEC_USE_COUNT`)
is the spec's capability loan, modelled by `modRefs`.  Heap identity of
registrations and of operation tables is modelled by numeric
identifiers drawn from `nextId`; `kfree` events are recorded in
`freedTables` / `freedRegs`; `tablesAllocated` counts successful
operation-table `kmalloc`s; `confusions` counts emissions of the
source's "confusion" report (line 216, its only one).
-/

/-- `struct proclikefs_file_system`: name, `live` flag, `nsuper`
instance count (an `atomic_t` int, so it may go negative), owned
file-operation and inode-operation tables (`pfs_pfo` / `pfs_pio`
linked lists, head = most recently allocated), tracked superblocks
(`fs.fs_supers`), and the `file_system_type` fields the source
assigns (`fs_flags`, `get_sb` constructor). -/
structure PFS where
  id : Nat
  name : String
  live : Bool
  nsuper : Int
  pfo : List (Nat × FileOps)
  pio : List (Nat × InodeOps)
  supers : List SuperBlock
  fs_flags : Int
  get_sb : Nat

/-- Global state of the module. -/
@[ext]
structure Sys where
  fs_list : List PFS
  modRefs : Int
  nextId : Nat
  tablesAllocated : Nat
  freedTables : List Nat
  freedRegs : List Nat
  confusions : Nat

/-- Initial state (`init_module`, line 522). -/
def sys0 : Sys :=
  { fs_list := [], modRefs := 0, nextId := 0, tablesAllocated := 0,
    freedTables := [], freedRegs := [], confusions := 0 }

/-- Mutation through a pointer to one registration: update the first
list entry carrying the identifier. -/
def updateFirst (hid : Nat) (f : PFS → PFS) : List PFS → List PFS
  | [] => []
  | p :: rest => if p.id = hid then f p :: rest else p :: updateFirst hid f rest

/-- Result of the name-scan loop of `proclikefs_register_filesystem`
(lines 143-153), with the source's cursor semantics: `newfs` is
(re)assigned to every entry examined, so when the loop falls off the
end of a non-empty list without a name match, `newfs` is left pointing
at the last entry examined, `if (!newfs)` at line 155 is false, and
that unrelated entry is reinitialized in place. -/
inductive RegScan where
  | liveMatch
  | reinit (updated : List PFS) (handle : Nat)
  | empty

/-- The scan loop (lines 143-153) fused with the in-place
reinitialization performed through the cursor (lines 179-186): `upd`
assigns `fs_flags`, `get_sb` and `live = 1` to the cursor's target.
`.empty` arises only when the list is empty (the cursor was never
assigned). -/
def regFind (n : String) (upd : PFS → PFS) : List PFS → RegScan
  | [] => .empty
  | p :: rest =>
    if p.name = n then
      if p.live then .liveMatch else .reinit (upd p :: rest) p.id
    else
      match regFind n upd rest with
      | .empty => .reinit (upd p :: rest) p.id
      | .liveMatch => .liveMatch
      | .reinit l h => .reinit (p :: l) h

/-- `proclikefs_register_filesystem` (lines 116-197).  `none` for
`name` is the C null pointer (line 129).  `try_module_get` (line 133)
is assumed to succeed — its failure is a hosting-kernel condition —
and takes the capability loan; the loan is returned on every failure
path (`MOD_DEC_USE_COUNT`, lines 148, 159).  `allocOk` models the
`kmalloc` outcome at line 156.  The kernel-side
`register_filesystem` call (line 190) is an external collaborator and
is not modelled. -/
def proclikefs_register_filesystem (sys : Sys) (name : Option String)
    (fs_flags : Int) (get_sb : Nat) (allocOk : Bool) : Sys × Option Nat :=
  match name with
  | none => (sys, none)
  | some n =>
    let s1 : Sys := { sys with modRefs := sys.modRefs + 1 }
    match regFind n (fun p => { p with fs_flags := fs_flags, get_sb := get_sb, live := true })
        s1.fs_list with
    | .liveMatch => ({ s1 with modRefs := s1.modRefs - 1 }, none)
    | .reinit l h => ({ s1 with fs_list := l }, some h)
    | .empty =>
      if allocOk then
        let newp : PFS :=
          { id := s1.nextId, name := n, live := true, nsuper := 0,
            pfo := [], pio := [], supers := [], fs_flags := fs_flags, get_sb := get_sb }
        ({ s1 with fs_list := newp :: s1.fs_list, nextId := s1.nextId + 1 }, some newp.id)
      else ({ s1 with modRefs := s1.modRefs - 1 }, none)

/-- Poisoning and quiescence steps of
`proclikefs_unregister_filesystem` applied to one registration:
overwrite every owned file-operation table (lines 331-360) and every
owned inode-operation table (lines 362-394), run
`proclikefs_kill_super` on every tracked superblock (lines 417-424),
and clear `live` (line 435). -/
def poisonPFS (p : PFS) : PFS :=
  { p with
    pfo := p.pfo.map (fun t => (t.1, poisonFileOps t.2)),
    pio := p.pio.map (fun t => (t.1, poisonInodeOps t.2)),
    supers := p.supers.map proclikefs_kill_super,
    live := false }

/-- `proclikefs_unregister_filesystem` (lines 315-443).  `none` is the
C null handle (line 324: immediate return).  `MOD_DEC_USE_COUNT`
(line 439) releases the capability loan unconditionally. -/
def proclikefs_unregister_filesystem (sys : Sys) (handle : Option Nat) : Sys :=
  match handle with
  | none => sys
  | some hid =>
    { sys with
      fs_list := updateFirst hid poisonPFS sys.fs_list,
      modRefs := sys.modRefs - 1 }

/-- `proclikefs_read_super` (lines 445-457): increment `nsuper`, take a
capability loan.  Linking the superblock into `fs.fs_supers` is done by
the hosting VFS around the same mount event; it is modelled here as
part of the same step. -/
def proclikefs_read_super (sys : Sys) (hid : Nat) (sb : SuperBlock) : Sys :=
  { sys with
    fs_list := updateFirst hid
      (fun p => { p with nsuper := p.nsuper + 1, supers := sb :: p.supers }) sys.fs_list,
    modRefs := sys.modRefs + 1 }

/-- `proclikefs_put_super` (lines 459-484): decrement `nsuper`, release
the capability loan; then, if the registration is not live and
`nsuper` reads 0, reclaim — `list_del` from the Registry, free every
owned table (the two `while`/`kfree` loops, lines 473-480), free the
registration (line 481).  The kernel-side `unregister_filesystem` call
(line 472) is an external collaborator and is not modelled. -/
def proclikefs_put_super (sys : Sys) (hid : Nat) : Sys :=
  let l1 := updateFirst hid (fun p => { p with nsuper := p.nsuper - 1 }) sys.fs_list
  let s1 : Sys := { sys with fs_list := l1, modRefs := sys.modRefs - 1 }
  match l1.find? (fun p => p.id == hid) with
  | none => s1
  | some p =>
    if p.live = false ∧ p.nsuper = 0 then
      { s1 with
        fs_list := l1.eraseP (fun q => q.id == hid),
        freedTables := s1.freedTables ++ p.pfo.map Prod.fst ++ p.pio.map Prod.fst,
        freedRegs := p.id :: s1.freedRegs }
    else s1

/-- `proclikefs_new_file_operations` (lines 486-499): `kmalloc` a
table (`allocOk` models the outcome; on failure the source returns the
field offset of a null pointer, modelled as `none`), prepend it to the
registration's `pfs_pfo` list, zero its contents.  The guard that the
handle is present marks the C precondition that `pfs` is a valid
pointer. -/
def proclikefs_new_file_operations (sys : Sys) (hid : Nat) (allocOk : Bool) :
    Sys × Option Nat :=
  if allocOk then
    if sys.fs_list.any (fun p => p.id == hid) then
      ({ sys with
         fs_list := updateFirst hid
           (fun p => { p with pfo := (sys.nextId, zeroFileOps) :: p.pfo }) sys.fs_list,
         nextId := sys.nextId + 1,
         tablesAllocated := sys.tablesAllocated + 1 },
       some sys.nextId)
    else (sys, none)
  else (sys, none)

/-- `proclikefs_new_inode_operations` (lines 501-514), the node-level
variant of table allocation. -/
def proclikefs_new_inode_operations (sys : Sys) (hid : Nat) (allocOk : Bool) :
    Sys × Option Nat :=
  if allocOk then
    if sys.fs_list.any (fun p => p.id == hid) then
      ({ sys with
         fs_list := updateFirst hid
           (fun p => { p with pio := (sys.nextId, zeroInodeOps) :: p.pio }) sys.fs_list,
         nextId := sys.nextId + 1,
         tablesAllocated := sys.tablesAllocated + 1 },
       some sys.nextId)
    else (sys, none)
  else (sys, none)

/-- One API call, for reasoning about call sequences. -/
inductive Op where
  | reg (name : Option String) (fs_flags : Int) (get_sb : Nat) (allocOk : Bool)
  | unreg (handle : Option Nat)
  | newFileOps (hid : Nat) (allocOk : Bool)
  | newInodeOps (hid : Nat) (allocOk : Bool)
  | acquire (hid : Nat)
  | release (hid : Nat)

/-- A canonical freshly mounted superblock. -/
def defaultSb : SuperBlock :=
  { sopNull := false, root := .node 0 true true [], rootIop := zeroInodeOps }

/-- Apply one API call. -/
def step (sys : Sys) : Op → Sys
  | .reg n f g a => (proclikefs_register_filesystem sys n f g a).1
  | .unreg h => proclikefs_unregister_filesystem sys h
  | .newFileOps h a => (proclikefs_new_file_operations sys h a).1
  | .newInodeOps h a => (proclikefs_new_inode_operations sys h a).1
  | .acquire h => proclikefs_read_super sys h defaultSb
  | .release h => proclikefs_put_super sys h

/-- Apply a sequence of API calls. -/
def run (sys : Sys) (ops : List Op) : Sys := ops.foldl step sys

/-!
Helper lemmas about the registry list operations.
-/

/-- Table identifiers owned by one registration. -/
def tableIds (p : PFS) : List Nat := p.pfo.map Prod.fst ++ p.pio.map Prod.fst

/-- Table identifiers owned across a registry list. -/
def ownedOf (l : List PFS) : List Nat := (l.map tableIds).flatten

/-- Table identifiers owned across the whole Registry. -/
def ownedTableIds (sys : Sys) : List Nat := ownedOf sys.fs_list

theorem ownedOf_nil : ownedOf [] = [] := rfl

theorem ownedOf_cons (p : PFS) (l : List PFS) :
    ownedOf (p :: l) = tableIds p ++ ownedOf l := by
  simp [ownedOf]

theorem ownedOf_append (a b : List PFS) :
    ownedOf (a ++ b) = ownedOf a ++ ownedOf b := by
  simp [ownedOf]

theorem tableIds_poisonPFS (p : PFS) : tableIds (poisonPFS p) = tableIds p := by
  simp only [tableIds, poisonPFS, List.map_map]
  have h1 : (Prod.fst ∘ fun t : Nat × FileOps => (t.1, poisonFileOps t.2)) = Prod.fst :=
    funext fun _ => rfl
  have h2 : (Prod.fst ∘ fun t : Nat × InodeOps => (t.1, poisonInodeOps t.2)) = Prod.fst :=
    funext fun _ => rfl
  rw [h1, h2]

theorem updateFirst_map_of_preserve (hid : Nat) (f : PFS → PFS) (g : PFS → Nat)
    (hf : ∀ p, g (f p) = g p) (l : List PFS) :
    (updateFirst hid f l).map g = l.map g := by
  induction l with
  | nil => rfl
  | cons p rest ih =>
    by_cases h : p.id = hid
    · simp [updateFirst, h, hf]
    · simp [updateFirst, h, ih]

theorem ownedOf_updateFirst (hid : Nat) (f : PFS → PFS)
    (hf : ∀ p, tableIds (f p) = tableIds p) (l : List PFS) :
    ownedOf (updateFirst hid f l) = ownedOf l := by
  induction l with
  | nil => rfl
  | cons p rest ih =>
    by_cases h : p.id = hid
    · simp [updateFirst, h, ownedOf_cons, hf]
    · simp [updateFirst, h, ownedOf_cons, ih]

theorem updateFirst_of_not_mem (hid : Nat) (f : PFS → PFS) (l : List PFS)
    (h : ∀ q ∈ l, q.id ≠ hid) : updateFirst hid f l = l := by
  induction l with
  | nil => rfl
  | cons p rest ih =>
    have hp : p.id ≠ hid := h p (List.mem_cons_self p rest)
    simp [updateFirst, hp, ih (fun q hq => h q (List.mem_cons_of_mem p hq))]

/-- Two registry entries with equal identifiers are equal when the
identifier list has no duplicates. -/
theorem eq_of_mem_of_id_eq (l : List PFS) (hnd : (l.map PFS.id).Nodup)
    (p q : PFS) (hp : p ∈ l) (hq : q ∈ l) (h : p.id = q.id) : p = q := by
  have := List.inj_on_of_nodup_map hnd
  exact this hp hq h

/-- Decomposition of `updateFirst` at the unique entry carrying `hid`. -/
theorem updateFirst_decomp (hid : Nat) (f : PFS → PFS) (l : List PFS)
    (hnd : (l.map PFS.id).Nodup) (p : PFS) (hp : p ∈ l) (hpid : p.id = hid) :
    ∃ a b, l = a ++ p :: b ∧ (∀ q ∈ a, q.id ≠ hid) ∧ (∀ q ∈ b, q.id ≠ hid) ∧
      updateFirst hid f l = a ++ f p :: b := by
  induction l with
  | nil => cases hp
  | cons x rest ih =>
    by_cases hx : x.id = hid
    · have hpx : p = x := by
        rcases List.mem_cons.mp hp with h | h
        · exact h
        · exact eq_of_mem_of_id_eq _ hnd p x hp (List.mem_cons_self x rest)
            (by rw [hpid, hx])
      subst hpx
      have hnd' : p.id ∉ rest.map PFS.id ∧ (rest.map PFS.id).Nodup := by
        rw [List.map_cons, List.nodup_cons] at hnd
        exact hnd
      refine ⟨[], rest, rfl, by simp, ?_, by simp [updateFirst, hx]⟩
      intro q hq hqid
      refine hnd'.1 ?_
      have hmem : q.id ∈ rest.map PFS.id := List.mem_map_of_mem PFS.id hq
      rwa [hqid, ← hpid] at hmem
    · have hpr : p ∈ rest := by
        rcases List.mem_cons.mp hp with h | h
        · exact absurd (h ▸ hpid) hx
        · exact h
      have hnd2 : (rest.map PFS.id).Nodup := by
        rw [List.map_cons, List.nodup_cons] at hnd
        exact hnd.2
      obtain ⟨a, b, hl, ha, hb, hu⟩ := ih hnd2 hpr
      exact ⟨x :: a, b, by simp [hl], by
        intro q hq
        rcases List.mem_cons.mp hq with h | h
        · exact h ▸ hx
        · exact ha q h, hb, by simp [updateFirst, hx, hu]⟩

/-- A registration named `n` that is live is found by the scan loop:
with no duplicate names, the first name match is the live one, and the
scan returns the `NameInUse` outcome. -/
theorem regFind_liveMatch_of (n : String) (upd : PFS → PFS) (l : List PFS)
    (hnd : (l.map PFS.name).Nodup) (p : PFS) (hp : p ∈ l)
    (hname : p.name = n) (hlive : p.live = true) :
    regFind n upd l = .liveMatch := by
  induction l with
  | nil => cases hp
  | cons x rest ih =>
    have hnd' : x.name ∉ rest.map PFS.name ∧ (rest.map PFS.name).Nodup := by
      rw [List.map_cons, List.nodup_cons] at hnd
      exact hnd
    by_cases hx : x.name = n
    · have hpx : p = x := by
        rcases List.mem_cons.mp hp with h | h
        · exact h
        · exact absurd (by
            have hmem : p.name ∈ rest.map PFS.name := List.mem_map_of_mem PFS.name h
            rwa [hname, ← hx] at hmem) hnd'.1
      subst hpx
      simp [regFind, hx, hlive]
    · have hpr : p ∈ rest := by
        rcases List.mem_cons.mp hp with h | h
        · exact absurd (h ▸ hname) hx
        · exact h
      simp [regFind, hx, ih hnd'.2 hpr]

/-- A registration named `n` that is not live is found by the scan loop
and reinitialized in place through the cursor. -/
theorem regFind_reinit_of (n : String) (upd : PFS → PFS) (l : List PFS)
    (hnd : (l.map PFS.name).Nodup) (p : PFS) (hp : p ∈ l)
    (hname : p.name = n) (hdead : p.live = false) :
    ∃ a b, l = a ++ p :: b ∧ regFind n upd l = .reinit (a ++ upd p :: b) p.id := by
  induction l with
  | nil => cases hp
  | cons x rest ih =>
    have hnd' : x.name ∉ rest.map PFS.name ∧ (rest.map PFS.name).Nodup := by
      rw [List.map_cons, List.nodup_cons] at hnd
      exact hnd
    by_cases hx : x.name = n
    · have hpx : p = x := by
        rcases List.mem_cons.mp hp with h | h
        · exact h
        · exact absurd (by
            have hmem : p.name ∈ rest.map PFS.name := List.mem_map_of_mem PFS.name h
            rwa [hname, ← hx] at hmem) hnd'.1
      subst hpx
      exact ⟨[], rest, rfl, by simp [regFind, hx, hdead]⟩
    · have hpr : p ∈ rest := by
        rcases List.mem_cons.mp hp with h | h
        · exact absurd (h ▸ hname) hx
        · exact h
      obtain ⟨a, b, hl, hr⟩ := ih hnd'.2 hpr
      refine ⟨x :: a, b, by simp [hl], ?_⟩
      simp [regFind, hx, hr]

/-- Structure of a `.reinit` outcome of the scan loop, for arbitrary
lists: exactly one entry — the first name match, or the last entry when
nothing matched — is replaced by its update. -/
theorem regFind_reinit_shape (n : String) (upd : PFS → PFS) :
    ∀ l l' h, regFind n upd l = .reinit l' h →
      ∃ a p b, l = a ++ p :: b ∧ l' = a ++ upd p :: b := by
  intro l
  induction l with
  | nil => intro l' h hr; simp [regFind] at hr
  | cons x rest ih =>
    intro l' h hr
    by_cases hx : x.name = n
    · by_cases hl : x.live
      · simp [regFind, hx, hl] at hr
      · simp only [regFind, if_pos hx, if_neg hl, RegScan.reinit.injEq] at hr
        exact ⟨[], x, rest, rfl, by simp [← hr.1]⟩
    · cases hrest : regFind n upd rest with
      | empty =>
        simp only [regFind, if_neg hx, hrest, RegScan.reinit.injEq] at hr
        exact ⟨[], x, rest, rfl, by simp [← hr.1]⟩
      | liveMatch => simp [regFind, hx, hrest] at hr
      | reinit l'' h'' =>
        simp only [regFind, if_neg hx, hrest, RegScan.reinit.injEq] at hr
        obtain ⟨a, p, b, h1, h2⟩ := ih l'' h'' hrest
        exact ⟨x :: a, p, b, by simp [h1], by simp [← hr.1, h2]⟩

/-- `find?` and `eraseP` agree on the first matching element. -/
theorem find?_eraseP_decomp (pred : PFS → Bool) :
    ∀ (l : List PFS) (x : PFS), l.find? pred = some x →
      ∃ a b, l = a ++ x :: b ∧ (∀ q ∈ a, pred q = false) ∧ l.eraseP pred = a ++ b := by
  intro l
  induction l with
  | nil => intro x h; cases h
  | cons q rest ih =>
    intro x h
    cases hq : pred q with
    | true =>
      rw [List.find?_cons_of_pos _ hq] at h
      cases h
      exact ⟨[], rest, rfl, by simp, by simp [List.eraseP_cons, hq]⟩
    | false =>
      rw [List.find?_cons_of_neg _ (by simp [hq])] at h
      obtain ⟨a, b, h1, h2, h3⟩ := ih x h
      exact ⟨q :: a, b, by simp [h1], by
        intro r hr
        rcases List.mem_cons.mp hr with h | h
        · exact h ▸ hq
        · exact h2 r h, by simp [List.eraseP_cons, hq, h3]⟩

/-- `find?` misses when no element matches. -/
theorem find?_none_of (pred : PFS → Bool) (l : List PFS)
    (h : ∀ q ∈ l, pred q = false) : l.find? pred = none := by
  induction l with
  | nil => rfl
  | cons q rest ih =>
    rw [List.find?_cons_of_neg _ (by simp [h q (List.mem_cons_self q rest)])]
    exact ih (fun r hr => h r (List.mem_cons_of_mem q hr))

theorem find?_append_first (pred : PFS → Bool) (a b : List PFS) (x : PFS)
    (ha : ∀ q ∈ a, pred q = false) (hx : pred x = true) :
    (a ++ x :: b).find? pred = some x := by
  induction a with
  | nil => simp [List.find?_cons_of_pos _ hx]
  | cons q rest ih =>
    rw [List.cons_append,
      List.find?_cons_of_neg _ (by simp [ha q (List.mem_cons_self q rest)])]
    exact ih (fun r hr => ha r (List.mem_cons_of_mem q hr))

theorem eraseP_append_first (pred : PFS → Bool) (a b : List PFS) (x : PFS)
    (ha : ∀ q ∈ a, pred q = false) (hx : pred x = true) :
    (a ++ x :: b).eraseP pred = a ++ b := by
  induction a with
  | nil => simp [List.eraseP_cons, hx]
  | cons q rest ih =>
    rw [List.cons_append, List.eraseP_cons, ha q (List.mem_cons_self q rest)]
    simp only [cond_false, List.cons_append, List.cons.injEq, true_and]
    exact ih (fun r hr => ha r (List.mem_cons_of_mem q hr))

/-- `proclikefs_put_super` on the nonexistent handle: only the
decrement of the capability loan happens. -/
theorem put_super_absent (sys : Sys) (hid : Nat)
    (h : ∀ q ∈ sys.fs_list, q.id ≠ hid) :
    proclikefs_put_super sys hid = { sys with modRefs := sys.modRefs - 1 } := by
  have hu := updateFirst_of_not_mem hid
    (fun q => { q with nsuper := q.nsuper - 1 }) sys.fs_list h
  have hfind : (sys.fs_list.find? (fun q => q.id == hid)) = none :=
    find?_none_of _ _ (fun q hq => by simp [h q hq])
  simp only [proclikefs_put_super, hu, hfind]

/-- `proclikefs_put_super` in the reclaiming state: the registration
whose count drops to 0 while not live is removed from the Registry,
its tables are freed in list order, and the registration is freed. -/
theorem put_super_reclaim (sys : Sys) (hid : Nat) (p : PFS)
    (hnd : (sys.fs_list.map PFS.id).Nodup) (hp : p ∈ sys.fs_list) (hpid : p.id = hid)
    (hdead : p.live = false) (hone : p.nsuper = 1) :
    ∃ a b, sys.fs_list = a ++ p :: b ∧ (∀ q ∈ a, q.id ≠ hid) ∧ (∀ q ∈ b, q.id ≠ hid) ∧
      proclikefs_put_super sys hid =
        { sys with
          fs_list := a ++ b,
          modRefs := sys.modRefs - 1,
          freedTables := sys.freedTables ++ p.pfo.map Prod.fst ++ p.pio.map Prod.fst,
          freedRegs := p.id :: sys.freedRegs } := by
  obtain ⟨a, b, hl, ha, hb, hu⟩ :=
    updateFirst_decomp hid (fun q => { q with nsuper := q.nsuper - 1 }) sys.fs_list hnd p hp hpid
  refine ⟨a, b, hl, ha, hb, ?_⟩
  have hfind : (updateFirst hid (fun q => { q with nsuper := q.nsuper - 1 })
      sys.fs_list).find? (fun q => q.id == hid) = some { p with nsuper := p.nsuper - 1 } := by
    rw [hu]
    exact find?_append_first _ a b _ (fun q hq => by simp [ha q hq]) (by simp [hpid])
  have herase : (updateFirst hid (fun q => { q with nsuper := q.nsuper - 1 })
      sys.fs_list).eraseP (fun q => q.id == hid) = a ++ b := by
    rw [hu]
    exact eraseP_append_first _ a b _ (fun q hq => by simp [ha q hq]) (by simp [hpid])
  have hcond : ({ p with nsuper := p.nsuper - 1 } : PFS).live = false ∧
      ({ p with nsuper := p.nsuper - 1 } : PFS).nsuper = 0 := by
    constructor
    · exact hdead
    · simp [hone]
  simp only [proclikefs_put_super, hfind, herase, if_pos hcond]

/-- `proclikefs_put_super` in a non-reclaiming state (still live, or
count not dropping to 0): the count is decremented and nothing is
freed. -/
theorem put_super_noreclaim (sys : Sys) (hid : Nat) (p : PFS)
    (hnd : (sys.fs_list.map PFS.id).Nodup) (hp : p ∈ sys.fs_list) (hpid : p.id = hid)
    (hcond : p.live = true ∨ p.nsuper ≠ 1) :
    ∃ a b, sys.fs_list = a ++ p :: b ∧ (∀ q ∈ a, q.id ≠ hid) ∧ (∀ q ∈ b, q.id ≠ hid) ∧
      proclikefs_put_super sys hid =
        { sys with
          fs_list := a ++ { p with nsuper := p.nsuper - 1 } :: b,
          modRefs := sys.modRefs - 1 } := by
  obtain ⟨a, b, hl, ha, hb, hu⟩ :=
    updateFirst_decomp hid (fun q => { q with nsuper := q.nsuper - 1 }) sys.fs_list hnd p hp hpid
  refine ⟨a, b, hl, ha, hb, ?_⟩
  have hfind : (updateFirst hid (fun q => { q with nsuper := q.nsuper - 1 })
      sys.fs_list).find? (fun q => q.id == hid) = some { p with nsuper := p.nsuper - 1 } := by
    rw [hu]
    exact find?_append_first _ a b _ (fun q hq => by simp [ha q hq]) (by simp [hpid])
  have hncond : ¬ (({ p with nsuper := p.nsuper - 1 } : PFS).live = false ∧
      ({ p with nsuper := p.nsuper - 1 } : PFS).nsuper = 0) := by
    rcases hcond with h | h
    · intro hc
      rw [h] at hc
      cases hc.1
    · intro hc
      have : p.nsuper - 1 = 0 := hc.2
      omega
  simp only [proclikefs_put_super, hfind]
  simp only [if_neg hncond, hu]

theorem ownedOf_updateFirst_prepend_pfo (hid k : Nat) (tb : FileOps) (l : List PFS)
    (hex : ∃ q ∈ l, q.id = hid) :
    (ownedOf (updateFirst hid (fun p => { p with pfo := (k, tb) :: p.pfo }) l)).Perm
      (k :: ownedOf l) := by
  induction l with
  | nil =>
    obtain ⟨q, hq, _⟩ := hex
    cases hq
  | cons x rest ih =>
    obtain ⟨q, hq, hqid⟩ := hex
    by_cases hx : x.id = hid
    · simp only [updateFirst, if_pos hx, ownedOf_cons]
      have ht : tableIds { x with pfo := (k, tb) :: x.pfo } = k :: tableIds x := by
        simp [tableIds]
      rw [ht]
      exact List.Perm.refl _
    · have hqr : q ∈ rest := by
        rcases List.mem_cons.mp hq with h | h
        · exact absurd (h ▸ hqid) hx
        · exact h
      simp only [updateFirst, if_neg hx, ownedOf_cons]
      exact ((ih ⟨q, hqr, hqid⟩).append_left (tableIds x)).trans List.perm_middle

theorem ownedOf_updateFirst_prepend_pio (hid k : Nat) (tb : InodeOps) (l : List PFS)
    (hex : ∃ q ∈ l, q.id = hid) :
    (ownedOf (updateFirst hid (fun p => { p with pio := (k, tb) :: p.pio }) l)).Perm
      (k :: ownedOf l) := by
  induction l with
  | nil =>
    obtain ⟨q, hq, _⟩ := hex
    cases hq
  | cons x rest ih =>
    obtain ⟨q, hq, hqid⟩ := hex
    by_cases hx : x.id = hid
    · simp only [updateFirst, if_pos hx, ownedOf_cons]
      have ht : tableIds { x with pio := (k, tb) :: x.pio }
          = x.pfo.map Prod.fst ++ k :: x.pio.map Prod.fst := by
        simp [tableIds]
      rw [ht]
      refine Multiset.coe_eq_coe.mp ?_
      simp only [← Multiset.coe_add, multiset_coe_cons, tableIds]
      abel
    · have hqr : q ∈ rest := by
        rcases List.mem_cons.mp hq with h | h
        · exact absurd (h ▸ hqid) hx
        · exact h
      simp only [updateFirst, if_neg hx, ownedOf_cons]
      exact ((ih ⟨q, hqr, hqid⟩).append_left (tableIds x)).trans List.perm_middle

/-!
Table conservation: the invariant tying allocated, owned and freed
operation tables together, preserved by every API call.
-/

/-- Conservation invariant: owned and freed table identifiers are
pairwise distinct (so no table is freed twice and no freed table is
still owned), all are below the allocation counter, and the number of
successful table allocations equals owned plus freed. -/
def tablesInv (sys : Sys) : Prop :=
  (ownedTableIds sys ++ sys.freedTables).Nodup ∧
  (∀ i ∈ ownedTableIds sys ++ sys.freedTables, i < sys.nextId) ∧
  sys.tablesAllocated = (ownedTableIds sys).length + sys.freedTables.length

theorem tablesInv_sys0 : tablesInv sys0 := by
  refine ⟨by simp [ownedTableIds, ownedOf, sys0], ?_, by simp [ownedTableIds, ownedOf, sys0]⟩
  intro i hi
  simp [ownedTableIds, ownedOf, sys0] at hi

theorem tablesInv_mk (sys : Sys) (h : tablesInv sys) (l' : List PFS) (mr : Int)
    (heq : ownedOf l' = ownedOf sys.fs_list) :
    tablesInv { sys with fs_list := l', modRefs := mr } := by
  refine ⟨?_, ?_, ?_⟩
  · show (ownedOf l' ++ sys.freedTables).Nodup
    rw [heq]
    exact h.1
  · show ∀ i ∈ ownedOf l' ++ sys.freedTables, i < sys.nextId
    rw [heq]
    exact h.2.1
  · show sys.tablesAllocated = (ownedOf l').length + sys.freedTables.length
    rw [heq]
    exact h.2.2

theorem tablesInv_register (sys : Sys) (n : Option String) (fl : Int) (g : Nat) (a : Bool)
    (h : tablesInv sys) : tablesInv (proclikefs_register_filesystem sys n fl g a).1 := by
  match n with
  | none => exact h
  | some nm =>
    cases hr : regFind nm (fun p => { p with fs_flags := fl, get_sb := g, live := true })
        sys.fs_list with
    | liveMatch =>
      have hres : (proclikefs_register_filesystem sys (some nm) fl g a).1 =
          { sys with modRefs := sys.modRefs + 1 - 1 } := by
        simp [proclikefs_register_filesystem, hr]
      rw [hres]
      exact tablesInv_mk sys h sys.fs_list _ rfl
    | reinit l' hd =>
      have hres : (proclikefs_register_filesystem sys (some nm) fl g a).1 =
          { sys with fs_list := l', modRefs := sys.modRefs + 1 } := by
        simp [proclikefs_register_filesystem, hr]
      obtain ⟨a', p, b', h1, h2⟩ := regFind_reinit_shape nm _ sys.fs_list l' hd hr
      have howned : ownedOf l' = ownedOf sys.fs_list := by
        rw [h1, h2, ownedOf_append, ownedOf_append, ownedOf_cons, ownedOf_cons]
        rfl
      rw [hres]
      exact tablesInv_mk sys h l' _ howned
    | empty =>
      cases ha : a with
      | false =>
        have hres : (proclikefs_register_filesystem sys (some nm) fl g false).1 =
            { sys with modRefs := sys.modRefs + 1 - 1 } := by
          simp [proclikefs_register_filesystem, hr]
        rw [hres]
        exact tablesInv_mk sys h sys.fs_list _ rfl
      | true =>
        have hres : (proclikefs_register_filesystem sys (some nm) fl g true).1 =
            { sys with
              fs_list :=
                { id := sys.nextId, name := nm, live := true, nsuper := 0, pfo := [],
                  pio := [], supers := [], fs_flags := fl, get_sb := g } :: sys.fs_list,
              modRefs := sys.modRefs + 1,
              nextId := sys.nextId + 1 } := by
          simp [proclikefs_register_filesystem, hr]
        rw [hres]
        refine ⟨?_, ?_, ?_⟩
        · show ((ownedOf (_ :: sys.fs_list)) ++ sys.freedTables).Nodup
          rw [ownedOf_cons]
          exact h.1
        · show ∀ i ∈ (ownedOf (_ :: sys.fs_list)) ++ sys.freedTables, i < sys.nextId + 1
          rw [ownedOf_cons]
          intro i hi
          have hi' : i ∈ ownedTableIds sys ++ sys.freedTables := by
            simpa [tableIds, ownedTableIds] using hi
          have := h.2.1 i hi'
          omega
        · show sys.tablesAllocated
            = (ownedOf (_ :: sys.fs_list)).length + sys.freedTables.length
          rw [ownedOf_cons]
          exact h.2.2

theorem tablesInv_unregister (sys : Sys) (handle : Option Nat)
    (h : tablesInv sys) : tablesInv (proclikefs_unregister_filesystem sys handle) := by
  match handle with
  | none => exact h
  | some hid =>
    exact tablesInv_mk sys h _ _
      (ownedOf_updateFirst hid poisonPFS tableIds_poisonPFS sys.fs_list)

theorem tablesInv_read_super (sys : Sys) (hid : Nat) (sb : SuperBlock)
    (h : tablesInv sys) : tablesInv (proclikefs_read_super sys hid sb) := by
  exact tablesInv_mk sys h _ _
    (ownedOf_updateFirst hid
      (fun p => { p with nsuper := p.nsuper + 1, supers := sb :: p.supers })
      (fun p => rfl) sys.fs_list)

theorem tablesInv_alloc (sys : Sys) (h : tablesInv sys) (l' : List PFS)
    (hperm : (ownedOf l').Perm (sys.nextId :: ownedOf sys.fs_list)) :
    tablesInv { sys with
      fs_list := l',
      nextId := sys.nextId + 1,
      tablesAllocated := sys.tablesAllocated + 1 } := by
  obtain ⟨hN, hB, hL⟩ := h
  have hnotin : sys.nextId ∉ ownedTableIds sys ++ sys.freedTables := by
    intro hmeme
    have := hB _ hmeme
    omega
  have hperm2 : (ownedOf l' ++ sys.freedTables).Perm
      (sys.nextId :: (ownedTableIds sys ++ sys.freedTables)) := by
    refine (hperm.append_right sys.freedTables).trans ?_
    simp only [List.cons_append]
    exact List.Perm.refl _
  refine ⟨?_, ?_, ?_⟩
  · show (ownedOf l' ++ sys.freedTables).Nodup
    exact hperm2.nodup_iff.mpr (List.nodup_cons.mpr ⟨hnotin, hN⟩)
  · show ∀ i ∈ ownedOf l' ++ sys.freedTables, i < sys.nextId + 1
    intro i hi
    rcases List.mem_cons.mp (hperm2.mem_iff.mp hi) with hh | hh
    · omega
    · have := hB _ hh
      omega
  · show sys.tablesAllocated + 1 = (ownedOf l').length + sys.freedTables.length
    have hlen := hperm.length_eq
    simp only [List.length_cons] at hlen
    have : (ownedTableIds sys).length = (ownedOf sys.fs_list).length := rfl
    omega

theorem tablesInv_new_file_operations (sys : Sys) (hid : Nat) (a : Bool)
    (h : tablesInv sys) : tablesInv (proclikefs_new_file_operations sys hid a).1 := by
  cases a with
  | false => exact h
  | true =>
    by_cases hex : sys.fs_list.any (fun p => p.id == hid) = true
    · have hres : (proclikefs_new_file_operations sys hid true).1 =
          { sys with
            fs_list := updateFirst hid
              (fun p => { p with pfo := (sys.nextId, zeroFileOps) :: p.pfo }) sys.fs_list,
            nextId := sys.nextId + 1,
            tablesAllocated := sys.tablesAllocated + 1 } := by
        simp [proclikefs_new_file_operations, hex]
      rw [hres]
      have hexE : ∃ q ∈ sys.fs_list, q.id = hid := by
        obtain ⟨q, hq, hqid⟩ := List.any_eq_true.mp hex
        exact ⟨q, hq, by simpa using hqid⟩
      exact tablesInv_alloc sys h _
        (ownedOf_updateFirst_prepend_pfo hid sys.nextId zeroFileOps sys.fs_list hexE)
    · have hres : (proclikefs_new_file_operations sys hid true).1 = sys := by
        simp [proclikefs_new_file_operations, hex]
      rw [hres]
      exact h

theorem tablesInv_new_inode_operations (sys : Sys) (hid : Nat) (a : Bool)
    (h : tablesInv sys) : tablesInv (proclikefs_new_inode_operations sys hid a).1 := by
  cases a with
  | false => exact h
  | true =>
    by_cases hex : sys.fs_list.any (fun p => p.id == hid) = true
    · have hres : (proclikefs_new_inode_operations sys hid true).1 =
          { sys with
            fs_list := updateFirst hid
              (fun p => { p with pio := (sys.nextId, zeroInodeOps) :: p.pio }) sys.fs_list,
            nextId := sys.nextId + 1,
            tablesAllocated := sys.tablesAllocated + 1 } := by
        simp [proclikefs_new_inode_operations, hex]
      rw [hres]
      have hexE : ∃ q ∈ sys.fs_list, q.id = hid := by
        obtain ⟨q, hq, hqid⟩ := List.any_eq_true.mp hex
        exact ⟨q, hq, by simpa using hqid⟩
      exact tablesInv_alloc sys h _
        (ownedOf_updateFirst_prepend_pio hid sys.nextId zeroInodeOps sys.fs_list hexE)
    · have hres : (proclikefs_new_inode_operations sys hid true).1 = sys := by
        simp [proclikefs_new_inode_operations, hex]
      rw [hres]
      exact h

theorem tablesInv_put_super (sys : Sys) (hid : Nat)
    (h : tablesInv sys) : tablesInv (proclikefs_put_super sys hid) := by
  have howned : ownedOf (updateFirst hid (fun p => { p with nsuper := p.nsuper - 1 })
      sys.fs_list) = ownedOf sys.fs_list :=
    ownedOf_updateFirst hid (fun p => { p with nsuper := p.nsuper - 1 })
      (fun p => rfl) sys.fs_list
  cases hfind : (updateFirst hid (fun p => { p with nsuper := p.nsuper - 1 })
      sys.fs_list).find? (fun q => q.id == hid) with
  | none =>
    have hres : proclikefs_put_super sys hid =
        { sys with
          fs_list := updateFirst hid (fun p => { p with nsuper := p.nsuper - 1 }) sys.fs_list,
          modRefs := sys.modRefs - 1 } := by
      simp only [proclikefs_put_super, hfind]
    rw [hres]
    exact tablesInv_mk sys h _ _ howned
  | some p =>
    by_cases hcond : p.live = false ∧ p.nsuper = 0
    · obtain ⟨a, b, hl1, hpa, herase⟩ :=
        find?_eraseP_decomp (fun q => q.id == hid)
          (updateFirst hid (fun q => { q with nsuper := q.nsuper - 1 }) sys.fs_list) p hfind
      have hres : proclikefs_put_super sys hid =
          { sys with
            fs_list := a ++ b,
            modRefs := sys.modRefs - 1,
            freedTables := sys.freedTables ++ p.pfo.map Prod.fst ++ p.pio.map Prod.fst,
            freedRegs := p.id :: sys.freedRegs } := by
        simp only [proclikefs_put_super, hfind, if_pos hcond, herase]
      rw [hres]
      have hsplit : ownedOf sys.fs_list = ownedOf a ++ (tableIds p ++ ownedOf b) := by
        rw [← howned, hl1, ownedOf_append, ownedOf_cons]
      have hfr : sys.freedTables ++ p.pfo.map Prod.fst ++ p.pio.map Prod.fst
          = sys.freedTables ++ tableIds p := by
        rw [tableIds, ← List.append_assoc]
      have hperm : (ownedOf (a ++ b) ++ (sys.freedTables ++ tableIds p)).Perm
          (ownedOf sys.fs_list ++ sys.freedTables) := by
        rw [hsplit, ownedOf_append]
        refine Multiset.coe_eq_coe.mp ?_
        simp only [← Multiset.coe_add]
        abel
      refine ⟨?_, ?_, ?_⟩
      · show (ownedOf (a ++ b)
            ++ (sys.freedTables ++ p.pfo.map Prod.fst ++ p.pio.map Prod.fst)).Nodup
        rw [hfr]
        exact hperm.nodup_iff.mpr h.1
      · show ∀ i ∈ ownedOf (a ++ b)
            ++ (sys.freedTables ++ p.pfo.map Prod.fst ++ p.pio.map Prod.fst), i < sys.nextId
        rw [hfr]
        intro i hi
        exact h.2.1 i (hperm.mem_iff.mp hi)
      · show sys.tablesAllocated = (ownedOf (a ++ b)).length
            + (sys.freedTables ++ p.pfo.map Prod.fst ++ p.pio.map Prod.fst).length
        rw [hfr]
        have hlen := hperm.length_eq
        have hL := h.2.2
        have : (ownedTableIds sys).length = (ownedOf sys.fs_list).length := rfl
        simp only [List.length_append] at hlen hL ⊢
        omega
    · have hres : proclikefs_put_super sys hid =
          { sys with
            fs_list := updateFirst hid (fun p => { p with nsuper := p.nsuper - 1 }) sys.fs_list,
            modRefs := sys.modRefs - 1 } := by
        simp only [proclikefs_put_super, hfind, if_neg hcond]
      rw [hres]
      exact tablesInv_mk sys h _ _ howned

theorem tablesInv_step (sys : Sys) (op : Op) (h : tablesInv sys) :
    tablesInv (step sys op) := by
  cases op with
  | reg n f g a => exact tablesInv_register sys n f g a h
  | unreg hd => exact tablesInv_unregister sys hd h
  | newFileOps hd a => exact tablesInv_new_file_operations sys hd a h
  | newInodeOps hd a => exact tablesInv_new_inode_operations sys hd a h
  | acquire hd => exact tablesInv_read_super sys hd defaultSb h
  | release hd => exact tablesInv_put_super sys hd h

theorem tablesInv_run (ops : List Op) : ∀ sys, tablesInv sys → tablesInv (run sys ops) := by
  induction ops with
  | nil => intro sys h; exact h
  | cons op rest ih => intro sys h; exact ih _ (tablesInv_step sys op h)

/-!
Facts about poisoning, used by the unregister claims.
-/

/-- Hash-membership flag of a dentry. -/
def topHashed : Dentry → Bool
  | .node _ _ hsh _ => hsh

theorem poisonPFS_idem (p : PFS) : poisonPFS (poisonPFS p) = poisonPFS p := by
  have hf : ((fun t : Nat × FileOps => (t.1, poisonFileOps t.2))
      ∘ (fun t : Nat × FileOps => (t.1, poisonFileOps t.2)))
      = fun t : Nat × FileOps => (t.1, poisonFileOps t.2) := funext fun t => rfl
  have hio : ((fun t : Nat × InodeOps => (t.1, poisonInodeOps t.2))
      ∘ (fun t : Nat × InodeOps => (t.1, poisonInodeOps t.2)))
      = fun t : Nat × InodeOps => (t.1, poisonInodeOps t.2) := funext fun t => rfl
  have hs : (proclikefs_kill_super ∘ proclikefs_kill_super) = proclikefs_kill_super :=
    funext proclikefs_kill_super_idem
  simp only [poisonPFS, List.map_map, hf, hio, hs]

theorem updateFirst_idem (hid : Nat) (f : PFS → PFS)
    (hid_pres : ∀ p, (f p).id = p.id) (hidem : ∀ p, f (f p) = f p) (l : List PFS) :
    updateFirst hid f (updateFirst hid f l) = updateFirst hid f l := by
  induction l with
  | nil => rfl
  | cons x rest ih =>
    by_cases hx : x.id = hid
    · simp [updateFirst, hx, hid_pres, hidem]
    · simp [updateFirst, hx, ih]

/-- Any registration carrying the unregistered handle in the
post-unregister Registry is the poisoned image of a pre-unregister
registration with that handle. -/
theorem mem_unregister_poisoned (sys : Sys) (hid : Nat)
    (hnd : (sys.fs_list.map PFS.id).Nodup) (p : PFS)
    (hp : p ∈ (proclikefs_unregister_filesystem sys (some hid)).fs_list)
    (hpid : p.id = hid) :
    ∃ q ∈ sys.fs_list, q.id = hid ∧ p = poisonPFS q := by
  by_cases hex : ∃ q ∈ sys.fs_list, q.id = hid
  · obtain ⟨q, hq, hqid⟩ := hex
    obtain ⟨a, b, hl, ha, hb, hu⟩ := updateFirst_decomp hid poisonPFS sys.fs_list hnd q hq hqid
    have hres : (proclikefs_unregister_filesystem sys (some hid)).fs_list
        = a ++ poisonPFS q :: b := hu
    rw [hres] at hp
    rcases List.mem_append.mp hp with hh | hh
    · exact absurd hpid (ha p hh)
    · rcases List.mem_cons.mp hh with hh2 | hh2
      · exact ⟨q, hq, hqid, hh2⟩
      · exact absurd hpid (hb p hh2)
  · have hres : (proclikefs_unregister_filesystem sys (some hid)).fs_list = sys.fs_list := by
      show updateFirst hid poisonPFS sys.fs_list = sys.fs_list
      exact updateFirst_of_not_mem hid poisonPFS sys.fs_list
        (fun q hq hqid => hex ⟨q, hq, hqid⟩)
    rw [hres] at hp
    exact absurd ⟨p, hp, hpid⟩ hex

/-- Slot contents of a poisoned registration's tables. -/
theorem poisonPFS_tables (q : PFS) :
    (poisonPFS q).live = false ∧
    (∀ tb ∈ (poisonPFS q).pfo, ∀ s, dispatchSlot (tb.2 s) = .notSupported) ∧
    (∀ tb ∈ (poisonPFS q).pio,
      (∀ s, s ≠ InodeSlot.follow_link → dispatchSlot (tb.2 s) = .notSupported) ∧
      tb.2 InodeSlot.follow_link = SlotVal.null) := by
  refine ⟨rfl, ?_, ?_⟩
  · intro tb htb s
    obtain ⟨t, ht, rfl⟩ := List.mem_map.mp htb
    cases s <;> rfl
  · intro tb htb
    obtain ⟨t, ht, rfl⟩ := List.mem_map.mp htb
    refine ⟨?_, rfl⟩
    intro s hs
    cases s
    case follow_link => exact absurd rfl hs
    all_goals rfl

/-!
Claim theorems.
-/

/-- C1 (amended): after `unregister(handle)` returns, the registration
carrying the handle is non-live and every slot of every owned
file-operation table dispatches to `NotSupported`; every slot of every
owned inode-operation table likewise, except `follow_link`, which is
cleared to the null pointer (and so does not return `NotSupported`).
The state is fully poisoned once `unregister` returns — no partially
poisoned table is observable. -/
theorem C1_unregister_poisons_tables (sys : Sys) (hid : Nat)
    (hnd : (sys.fs_list.map PFS.id).Nodup) :
    ∀ p ∈ (proclikefs_unregister_filesystem sys (some hid)).fs_list, p.id = hid →
      p.live = false ∧
      (∀ tb ∈ p.pfo, ∀ s, dispatchSlot (tb.2 s) = .notSupported) ∧
      (∀ tb ∈ p.pio,
        (∀ s, s ≠ InodeSlot.follow_link → dispatchSlot (tb.2 s) = .notSupported) ∧
        tb.2 InodeSlot.follow_link = SlotVal.null) := by
  intro p hp hpid
  obtain ⟨q, hq, hqid, rfl⟩ := mem_unregister_poisoned sys hid hnd p hp hpid
  exact poisonPFS_tables q

/-- C1 counterexample: a registration is created, obtains one
inode-operation table from `proclikefs_new_inode_operations`, and is
unregistered; the table's `follow_link` slot then does not dispatch to
`NotSupported` (the source clears it to the null pointer instead of the
`return_EIO` stub), refuting the claim that every slot of every table
obtained via `new_operation_table` returns `NotSupported`. -/
def c1sys : Sys :=
  proclikefs_unregister_filesystem
    (proclikefs_new_inode_operations (run sys0 [.reg (some "netfs") 0 0 true]) 0 true).1
    (some 0)

theorem C1_counterexample :
    c1sys.fs_list.any
      (fun p => p.pio.any
        (fun t => dispatchSlot (t.2 InodeSlot.follow_link)
          != DispatchResult.notSupported)) = true := by
  decide

def c1wreg : PFS :=
  { id := 0, name := "w", live := true, nsuper := 0,
    pfo := [(1, zeroFileOps)], pio := [(2, zeroInodeOps)],
    supers := [], fs_flags := 0, get_sb := 0 }

def c1wsys : Sys :=
  { fs_list := [c1wreg], modRefs := 1, nextId := 3, tablesAllocated := 2,
    freedTables := [], freedRegs := [], confusions := 0 }

theorem C1_witness :
    (c1wsys.fs_list.map PFS.id).Nodup ∧
    poisonPFS c1wreg ∈ (proclikefs_unregister_filesystem c1wsys (some 0)).fs_list ∧
    (poisonPFS c1wreg).id = 0 ∧
    ((poisonPFS c1wreg).live = false ∧
      (∀ tb ∈ (poisonPFS c1wreg).pfo, ∀ s, dispatchSlot (tb.2 s) = .notSupported) ∧
      (∀ tb ∈ (poisonPFS c1wreg).pio,
        (∀ s, s ≠ InodeSlot.follow_link → dispatchSlot (tb.2 s) = .notSupported) ∧
        tb.2 InodeSlot.follow_link = SlotVal.null)) := by
  have hmem : poisonPFS c1wreg ∈ (proclikefs_unregister_filesystem c1wsys (some 0)).fs_list :=
    List.mem_cons_self (poisonPFS c1wreg) []
  exact ⟨by decide, hmem, rfl,
    C1_unregister_poisons_tables c1wsys 0 (by decide) (poisonPFS c1wreg) hmem rfl⟩

/-- C2: on any dentry tree with distinct node identifiers, the
quiescence walk of `proclikefs_kill_super` visits every node exactly
once (the visit list is a duplicate-free permutation of all node
identifiers), drops (`d_drop`) every non-root node exactly once and
never the root, clears the dispatch hook of every visited node, leaves
every non-root node unhashed, and keeps the root addressable with the
minimal `proclikefs_null_root_inode_operations` set installed on the
root inode (its `lookup` slot alone is populated, with the `-ENOENT`
stub). -/
theorem C2_quiescence_walk (t : Dentry) (hnd : (allIds t).Nodup) :
    ((killWalk [t]).1.map Prod.fst).Perm (allIds t) ∧
    ((killWalk [t]).1.map Prod.fst).Nodup ∧
    ((killWalk [t]).2 ++ [topId t]).Perm (allIds t) ∧
    topId t ∉ (killWalk [t]).2 ∧
    (∀ s ∈ (killWalk [t]).1, s.2.1 = false) ∧
    (∀ s ∈ (killWalk [t]).1, s.1 ≠ topId t → s.2.2 = false) ∧
    (∀ sb : SuperBlock, sb.root = t →
      (proclikefs_kill_super sb).root = clearKeepHash t ∧
      topId (proclikefs_kill_super sb).root = topId t ∧
      topHashed (proclikefs_kill_super sb).root = topHashed t ∧
      (proclikefs_kill_super sb).rootIop InodeSlot.lookup = SlotVal.nullRootLookup ∧
      (∀ s, s ≠ InodeSlot.lookup → (proclikefs_kill_super sb).rootIop s = SlotVal.null)) := by
  obtain ⟨i, hk, hsh, cs⟩ := t
  have hv0 := killWalk_states [Dentry.node i hk hsh cs]
  have hv : ((killWalk [Dentry.node i hk hsh cs]).1).Perm
      (treeStates (clearKeepHash (Dentry.node i hk hsh cs))) := by
    refine hv0.trans ?_
    simp [listStates]
  have hids : (allIds (clearKeepHash (Dentry.node i hk hsh cs)))
      = allIds (Dentry.node i hk hsh cs) := allIds_clearKeepHash _
  have h1 : (((killWalk [Dentry.node i hk hsh cs]).1).map Prod.fst).Perm
      (allIds (Dentry.node i hk hsh cs)) := by
    have := hv.map Prod.fst
    rw [← hids]
    exact this
  have h2 : (((killWalk [Dentry.node i hk hsh cs]).1).map Prod.fst).Nodup :=
    h1.nodup_iff.mpr hnd
  have hd0 := killWalk_drops [Dentry.node i hk hsh cs]
  have h3 : (((killWalk [Dentry.node i hk hsh cs]).2)
      ++ [topId (Dentry.node i hk hsh cs)]).Perm (allIds (Dentry.node i hk hsh cs)) := by
    refine ?_
    have : [Dentry.node i hk hsh cs].map topId = [topId (Dentry.node i hk hsh cs)] := rfl
    rw [← this]
    exact hd0.trans h1
  have h4 : topId (Dentry.node i hk hsh cs) ∉ (killWalk [Dentry.node i hk hsh cs]).2 := by
    have hcons : ((topId (Dentry.node i hk hsh cs))
        :: (killWalk [Dentry.node i hk hsh cs]).2).Perm
        (allIds (Dentry.node i hk hsh cs)) :=
      ((List.perm_append_singleton _ _).symm.trans h3)
    have := hcons.nodup_iff.mpr hnd
    exact (List.nodup_cons.mp this).1
  have hstates : treeStates (clearKeepHash (Dentry.node i hk hsh cs))
      = (i, false, hsh) :: listStates (clearAllL cs) := rfl
  have h5 : ∀ s ∈ (killWalk [Dentry.node i hk hsh cs]).1, s.2.1 = false := by
    intro s hs
    have hmem := hv.mem_iff.mp hs
    rw [hstates] at hmem
    rcases List.mem_cons.mp hmem with hh | hh
    · rw [hh]
    · exact (listStates_clearAllL_flags cs s hh).1
  have h6 : ∀ s ∈ (killWalk [Dentry.node i hk hsh cs]).1,
      s.1 ≠ topId (Dentry.node i hk hsh cs) → s.2.2 = false := by
    intro s hs hne
    have hmem := hv.mem_iff.mp hs
    rw [hstates] at hmem
    rcases List.mem_cons.mp hmem with hh | hh
    · exact absurd (by rw [hh]; rfl) hne
    · exact (listStates_clearAllL_flags cs s hh).2
  refine ⟨h1, h2, h3, h4, h5, h6, ?_⟩
  intro sb hsb
  refine ⟨by rw [proclikefs_kill_super, hsb], ?_, ?_, rfl, ?_⟩
  · rw [proclikefs_kill_super, hsb]
    rfl
  · rw [proclikefs_kill_super, hsb]
    rfl
  · intro s hs
    cases s
    case lookup => exact absurd rfl hs
    all_goals rfl

def c2tree : Dentry :=
  .node 0 true true
    [.node 1 true true [.node 2 true true [.node 3 true true []]],
     .node 4 true true [], .node 5 true true []]

theorem C2_witness :
    (allIds c2tree).Nodup ∧
    ((killWalk [c2tree]).1.map Prod.fst).Perm (allIds c2tree) ∧
    topId c2tree ∉ (killWalk [c2tree]).2 ∧
    ((killWalk [c2tree]).2 ++ [topId c2tree]).Perm (allIds c2tree) := by
  have h := C2_quiescence_walk c2tree (by decide)
  exact ⟨by decide, h.1, h.2.2.2.1, h.2.2.1⟩

/-- C3: an `instance_release` (`proclikefs_put_super`) that brings the
count to 0 while the registration is not live reclaims exactly once:
the registration leaves the Registry (no entry with its handle
remains; all other entries are untouched), all of its owned tables are
freed, and the registration itself is freed; a repeated release on the
gone handle frees nothing further.  A release in any other state
(live, or a count not dropping to zero) frees nothing and leaves
Registry membership unchanged. -/
theorem C3_release_reclaims_once (sys : Sys) (hid : Nat) (p : PFS)
    (hnd : (sys.fs_list.map PFS.id).Nodup) (hp : p ∈ sys.fs_list) (hpid : p.id = hid) :
    (p.live = false ∧ p.nsuper = 1 →
      (∀ q ∈ (proclikefs_put_super sys hid).fs_list, q.id ≠ hid) ∧
      (∀ q ∈ (proclikefs_put_super sys hid).fs_list, q ∈ sys.fs_list) ∧
      (∀ q ∈ sys.fs_list, q.id ≠ hid → q ∈ (proclikefs_put_super sys hid).fs_list) ∧
      (proclikefs_put_super sys hid).freedTables
        = sys.freedTables ++ p.pfo.map Prod.fst ++ p.pio.map Prod.fst ∧
      (proclikefs_put_super sys hid).freedRegs = p.id :: sys.freedRegs ∧
      (proclikefs_put_super (proclikefs_put_super sys hid) hid).freedTables
        = (proclikefs_put_super sys hid).freedTables ∧
      (proclikefs_put_super (proclikefs_put_super sys hid) hid).freedRegs
        = (proclikefs_put_super sys hid).freedRegs) ∧
    ((p.live = true ∨ p.nsuper ≠ 1) →
      (proclikefs_put_super sys hid).fs_list.map PFS.id = sys.fs_list.map PFS.id ∧
      (proclikefs_put_super sys hid).freedTables = sys.freedTables ∧
      (proclikefs_put_super sys hid).freedRegs = sys.freedRegs) := by
  constructor
  · rintro ⟨hdead, hone⟩
    obtain ⟨a, b, hl, ha, hb, hres⟩ := put_super_reclaim sys hid p hnd hp hpid hdead hone
    have hfs : (proclikefs_put_super sys hid).fs_list = a ++ b := by rw [hres]
    have hnomem : ∀ q ∈ (proclikefs_put_super sys hid).fs_list, q.id ≠ hid := by
      rw [hfs]
      intro q hq
      rcases List.mem_append.mp hq with hh | hh
      · exact ha q hh
      · exact hb q hh
    refine ⟨hnomem, ?_, ?_, by rw [hres], by rw [hres], ?_, ?_⟩
    · rw [hfs, hl]
      intro q hq
      rcases List.mem_append.mp hq with hh | hh
      · exact List.mem_append_left _ hh
      · exact List.mem_append_right _ (List.mem_cons_of_mem p hh)
    · rw [hfs, hl]
      intro q hq hqid
      rcases List.mem_append.mp hq with hh | hh
      · exact List.mem_append_left _ hh
      · rcases List.mem_cons.mp hh with hh2 | hh2
        · exact absurd (hh2 ▸ hpid) hqid
        · exact List.mem_append_right _ hh2
    · rw [put_super_absent _ hid hnomem]
    · rw [put_super_absent _ hid hnomem]
  · intro hcond
    obtain ⟨a, b, hl, ha, hb, hres⟩ := put_super_noreclaim sys hid p hnd hp hpid hcond
    refine ⟨?_, by rw [hres], by rw [hres]⟩
    rw [hres, hl]
    simp [List.map_append]

def c3reg : PFS :=
  { id := 0, name := "w", live := false, nsuper := 1,
    pfo := [(1, zeroFileOps)], pio := [(2, zeroInodeOps)],
    supers := [], fs_flags := 0, get_sb := 0 }

def c3sys : Sys :=
  { fs_list := [c3reg], modRefs := 1, nextId := 3, tablesAllocated := 2,
    freedTables := [], freedRegs := [], confusions := 0 }

theorem C3_witness :
    (c3sys.fs_list.map PFS.id).Nodup ∧ c3reg.id = 0 ∧
    c3reg.live = false ∧ c3reg.nsuper = 1 ∧
    ((∀ q ∈ (proclikefs_put_super c3sys 0).fs_list, q.id ≠ 0) ∧
      (∀ q ∈ (proclikefs_put_super c3sys 0).fs_list, q ∈ c3sys.fs_list) ∧
      (∀ q ∈ c3sys.fs_list, q.id ≠ 0 → q ∈ (proclikefs_put_super c3sys 0).fs_list) ∧
      (proclikefs_put_super c3sys 0).freedTables
        = c3sys.freedTables ++ c3reg.pfo.map Prod.fst ++ c3reg.pio.map Prod.fst ∧
      (proclikefs_put_super c3sys 0).freedRegs = c3reg.id :: c3sys.freedRegs ∧
      (proclikefs_put_super (proclikefs_put_super c3sys 0) 0).freedTables
        = (proclikefs_put_super c3sys 0).freedTables ∧
      (proclikefs_put_super (proclikefs_put_super c3sys 0) 0).freedRegs
        = (proclikefs_put_super c3sys 0).freedRegs) := by
  have hmem : c3reg ∈ c3sys.fs_list := List.mem_cons_self c3reg []
  exact ⟨by decide, rfl, rfl, rfl,
    (C3_release_reclaims_once c3sys 0 c3reg (by decide) hmem rfl).1 ⟨rfl, rfl⟩⟩

/-- C4 (code bug): with one live registration named "foo" in the
Registry, `register("bar", ...)`, for which no Registration named
"bar" exists, does not allocate a fresh Registration: the scan loop's
cursor (`newfs`) is left pointing at the last examined entry, the
`if (!newfs)` allocation guard misfires, and the "foo" Registration is
reinitialized in place and returned as the handle for "bar" — its name
still "foo", the Registry still holding a single entry. -/
def c4sys : Sys := (proclikefs_register_filesystem sys0 (some "foo") 0 0 true).1

theorem C4_register_cursor_bug :
    c4sys.fs_list.map PFS.name = ["foo"] ∧
    c4sys.fs_list.map PFS.id = [0] ∧
    c4sys.fs_list.map PFS.live = [true] ∧
    (proclikefs_register_filesystem c4sys (some "bar") 5 7 true).2 = some 0 ∧
    (proclikefs_register_filesystem c4sys (some "bar") 5 7 true).1.fs_list.map PFS.name
      = ["foo"] ∧
    (proclikefs_register_filesystem c4sys (some "bar") 5 7 true).1.fs_list.map PFS.fs_flags
      = [5] ∧
    (proclikefs_register_filesystem c4sys (some "bar") 5 7 true).1.fs_list.length = 1 := by
  decide

/-- C5 (amended): an `instance_release` in excess of the matching
acquires — one performed while the count is already at or below zero —
is not detected and not logged (the `confusions` count, which tracks
the source's sole "confusion" report, is unchanged); the call merely
drives the count below zero and is otherwise a no-op: nothing is
freed, no reclamation runs, and Registry membership is unchanged. -/
theorem C5_spurious_release_silent (sys : Sys) (hid : Nat) (p : PFS)
    (hnd : (sys.fs_list.map PFS.id).Nodup) (hp : p ∈ sys.fs_list) (hpid : p.id = hid)
    (hneg : p.nsuper ≤ 0) :
    (proclikefs_put_super sys hid).confusions = sys.confusions ∧
    (proclikefs_put_super sys hid).freedTables = sys.freedTables ∧
    (proclikefs_put_super sys hid).freedRegs = sys.freedRegs ∧
    (proclikefs_put_super sys hid).fs_list.map PFS.id = sys.fs_list.map PFS.id ∧
    ∃ q ∈ (proclikefs_put_super sys hid).fs_list, q.id = hid ∧ q.nsuper = p.nsuper - 1 := by
  have hcond : p.live = true ∨ p.nsuper ≠ 1 := Or.inr (by omega)
  obtain ⟨a, b, hl, ha, hb, hres⟩ := put_super_noreclaim sys hid p hnd hp hpid hcond
  refine ⟨by rw [hres], by rw [hres], by rw [hres], ?_, ?_⟩
  · rw [hres, hl]
    simp [List.map_append]
  · refine ⟨{ p with nsuper := p.nsuper - 1 }, ?_, hpid, rfl⟩
    rw [hres]
    exact List.mem_append_right a (List.mem_cons_self _ b)

/-- C5 counterexample: one registration, zero acquires, one release.
The release is spurious (more releases than acquires), yet no
Confusion is recorded, the instance count goes to -1, and nothing is
freed — refuting the claim that the excess release is detected and
logged as a Confusion violation. -/
def c5sys : Sys := run sys0 [.reg (some "x") 0 0 true, .release 0]

theorem C5_counterexample :
    c5sys.confusions = 0 ∧ c5sys.fs_list.map PFS.nsuper = [-1] ∧
    c5sys.freedTables = [] ∧ c5sys.freedRegs = [] := by
  decide

def c5wreg : PFS :=
  { id := 0, name := "w", live := true, nsuper := 0,
    pfo := [], pio := [], supers := [], fs_flags := 0, get_sb := 0 }

def c5wsys : Sys :=
  { fs_list := [c5wreg], modRefs := 1, nextId := 1, tablesAllocated := 0,
    freedTables := [], freedRegs := [], confusions := 0 }

theorem C5_witness :
    (c5wsys.fs_list.map PFS.id).Nodup ∧ c5wreg.id = 0 ∧ c5wreg.nsuper ≤ 0 ∧
    ((proclikefs_put_super c5wsys 0).confusions = c5wsys.confusions ∧
      (proclikefs_put_super c5wsys 0).freedTables = c5wsys.freedTables ∧
      (proclikefs_put_super c5wsys 0).freedRegs = c5wsys.freedRegs ∧
      (proclikefs_put_super c5wsys 0).fs_list.map PFS.id = c5wsys.fs_list.map PFS.id ∧
      ∃ q ∈ (proclikefs_put_super c5wsys 0).fs_list, q.id = 0 ∧ q.nsuper = c5wreg.nsuper - 1) := by
  exact ⟨by decide, rfl, by decide,
    C5_spurious_release_silent c5wsys 0 c5wreg (by decide)
      (List.mem_cons_self c5wreg []) rfl (by decide)⟩

/-- C6: `register(name, ...)` while a live registration with that name
exists in the Registry (names pairwise distinct) fails — it returns
the null handle and leaves the entire state, including the Registry,
the existing registration and the capability loan count, exactly
unchanged. -/
theorem C6_register_name_in_use (sys : Sys) (n : String) (fl : Int) (g : Nat) (a : Bool)
    (hnd : (sys.fs_list.map PFS.name).Nodup) (p : PFS) (hp : p ∈ sys.fs_list)
    (hname : p.name = n) (hlive : p.live = true) :
    proclikefs_register_filesystem sys (some n) fl g a = (sys, none) := by
  have hr := regFind_liveMatch_of n
    (fun q => { q with fs_flags := fl, get_sb := g, live := true }) sys.fs_list hnd p hp
    hname hlive
  have harith : sys.modRefs + 1 - 1 = sys.modRefs := by omega
  simp only [proclikefs_register_filesystem, hr, harith, Prod.mk.injEq]

def c6reg : PFS :=
  { id := 0, name := "w", live := true, nsuper := 0,
    pfo := [], pio := [], supers := [], fs_flags := 0, get_sb := 0 }

def c6sys : Sys :=
  { fs_list := [c6reg], modRefs := 1, nextId := 1, tablesAllocated := 0,
    freedTables := [], freedRegs := [], confusions := 0 }

theorem C6_witness :
    (c6sys.fs_list.map PFS.name).Nodup ∧ c6reg.name = "w" ∧ c6reg.live = true ∧
    proclikefs_register_filesystem c6sys (some "w") 3 4 true = (c6sys, none) := by
  exact ⟨by decide, rfl, rfl,
    C6_register_name_in_use c6sys "w" 3 4 true (by decide) c6reg
      (List.mem_cons_self c6reg []) rfl rfl⟩

/-- C7 (amended): over any call sequence from the initial state, no
table identifier is ever freed twice, and the number of successful
table allocations always equals the number of tables still owned by
Registry entries plus the number freed — so a table can only be
"leaked" by remaining owned by a registration that stays in the
Registry, and whenever the Registry has been emptied (every
registration reclaimed) the freed count equals the allocated count
exactly.  (The unamended claim — freed equals allocated for every
balanced sequence — fails: see the counterexample, where a balanced
sequence ends with a dead registration still holding its table.) -/
theorem C7_table_conservation (ops : List Op) :
    (run sys0 ops).freedTables.Nodup ∧
    (run sys0 ops).tablesAllocated
      = (ownedTableIds (run sys0 ops)).length + (run sys0 ops).freedTables.length ∧
    ((run sys0 ops).fs_list = [] →
      (run sys0 ops).tablesAllocated = (run sys0 ops).freedTables.length) := by
  have h := tablesInv_run ops sys0 tablesInv_sys0
  refine ⟨h.1.of_append_right, h.2.2, ?_⟩
  intro hempty
  have howned : ownedTableIds (run sys0 ops) = [] := by
    simp [ownedTableIds, ownedOf, hempty]
  have h3 := h.2.2
  rw [howned] at h3
  simpa using h3

/-- C7 counterexample: the balanced sequence register, allocate table,
acquire, release, unregister — each register matched by an unregister,
each acquire by a release — ends with one table allocated and none
freed: the release-to-zero happened while the registration was still
live, so reclamation never ran and the poisoned table stays owned by
the dead registration indefinitely. -/
def c7leak : List Op :=
  [.reg (some "a") 0 0 true, .newFileOps 0 true, .acquire 0, .release 0, .unreg (some 0)]

theorem C7_counterexample :
    (run sys0 c7leak).tablesAllocated = 1 ∧
    (run sys0 c7leak).freedTables.length = 0 ∧
    (run sys0 c7leak).fs_list.length = 1 := by
  decide

def c7good : List Op :=
  [.reg (some "a") 0 0 true, .newFileOps 0 true, .acquire 0, .unreg (some 0), .release 0]

theorem C7_witness :
    (run sys0 c7good).fs_list = [] ∧
    (run sys0 c7good).freedTables.Nodup ∧
    (run sys0 c7good).tablesAllocated = (run sys0 c7good).freedTables.length := by
  have h := C7_table_conservation c7good
  exact ⟨rfl, h.1, h.2.2 rfl⟩

/-- C8: `unregister` is idempotent on its poisoning and quiescence
steps — a second `unregister` of the same handle leaves the whole
Registry list (table slots, superblock trees, liveness) exactly as the
first call left it, and the registration carrying the handle is
non-live after the first call (hence still non-live after the
second). -/
theorem C8_unregister_idempotent (sys : Sys) (hid : Nat)
    (hnd : (sys.fs_list.map PFS.id).Nodup) :
    (proclikefs_unregister_filesystem (proclikefs_unregister_filesystem sys (some hid))
        (some hid)).fs_list
      = (proclikefs_unregister_filesystem sys (some hid)).fs_list ∧
    ∀ p ∈ (proclikefs_unregister_filesystem sys (some hid)).fs_list, p.id = hid →
      p.live = false := by
  constructor
  · show updateFirst hid poisonPFS (updateFirst hid poisonPFS sys.fs_list)
        = updateFirst hid poisonPFS sys.fs_list
    exact updateFirst_idem hid poisonPFS (fun p => rfl) poisonPFS_idem sys.fs_list
  · intro p hp hpid
    obtain ⟨q, hq, hqid, rfl⟩ := mem_unregister_poisoned sys hid hnd p hp hpid
    rfl

def c8reg : PFS :=
  { id := 0, name := "w", live := true, nsuper := 1,
    pfo := [(1, zeroFileOps)], pio := [],
    supers := [{ sopNull := false, root := .node 0 true true [.node 1 true true []],
                 rootIop := zeroInodeOps }],
    fs_flags := 0, get_sb := 0 }

def c8sys : Sys :=
  { fs_list := [c8reg], modRefs := 2, nextId := 2, tablesAllocated := 1,
    freedTables := [], freedRegs := [], confusions := 0 }

theorem C8_witness :
    (c8sys.fs_list.map PFS.id).Nodup ∧
    (proclikefs_unregister_filesystem (proclikefs_unregister_filesystem c8sys (some 0))
        (some 0)).fs_list
      = (proclikefs_unregister_filesystem c8sys (some 0)).fs_list ∧
    (poisonPFS c8reg).live = false := by
  have h := C8_unregister_idempotent c8sys 0 (by decide)
  refine ⟨by decide, h.1, ?_⟩
  refine h.2 (poisonPFS c8reg) ?_ rfl
  exact List.mem_cons_self (poisonPFS c8reg) []

/-- C9: a `register` of the same name as an existing non-live
registration (names pairwise distinct) reinitializes that
registration's slot in place: the returned handle is the old
registration's identity, and the updated entry in the Registry keeps
the old instance counter and the old owned-table lists (file and
inode) unchanged — only the flags, the constructor and the live bit
are rewritten — so outstanding instances from the earlier lifetime
still gate reclamation and the old tables are still freed at eventual
reclamation, exactly once. -/
theorem C9_reinit_preserves_state (sys : Sys) (n : String) (fl : Int) (g : Nat) (a : Bool)
    (hnd : (sys.fs_list.map PFS.name).Nodup) (p : PFS) (hp : p ∈ sys.fs_list)
    (hname : p.name = n) (hdead : p.live = false) :
    (proclikefs_register_filesystem sys (some n) fl g a).2 = some p.id ∧
    { p with fs_flags := fl, get_sb := g, live := true }
      ∈ (proclikefs_register_filesystem sys (some n) fl g a).1.fs_list ∧
    ({ p with fs_flags := fl, get_sb := g, live := true } : PFS).id = p.id ∧
    ({ p with fs_flags := fl, get_sb := g, live := true } : PFS).nsuper = p.nsuper ∧
    ({ p with fs_flags := fl, get_sb := g, live := true } : PFS).pfo = p.pfo ∧
    ({ p with fs_flags := fl, get_sb := g, live := true } : PFS).pio = p.pio ∧
    ({ p with fs_flags := fl, get_sb := g, live := true } : PFS).live = true := by
  obtain ⟨A, B, hl, hr⟩ := regFind_reinit_of n
    (fun q => { q with fs_flags := fl, get_sb := g, live := true }) sys.fs_list hnd p hp
    hname hdead
  have h2 : proclikefs_register_filesystem sys (some n) fl g a =
      ({ sys with
         fs_list := A ++ { p with fs_flags := fl, get_sb := g, live := true } :: B,
         modRefs := sys.modRefs + 1 }, some p.id) := by
    simp [proclikefs_register_filesystem, hr]
  rw [h2]
  refine ⟨rfl, ?_, rfl, rfl, rfl, rfl, rfl⟩
  exact List.mem_append_right A (List.mem_cons_self _ B)

def c9reg : PFS :=
  { id := 7, name := "w", live := false, nsuper := 2,
    pfo := [(8, zeroFileOps)], pio := [(9, zeroInodeOps)],
    supers := [], fs_flags := 0, get_sb := 0 }

def c9sys : Sys :=
  { fs_list := [c9reg], modRefs := 2, nextId := 10, tablesAllocated := 2,
    freedTables := [], freedRegs := [], confusions := 0 }

theorem C9_witness :
    (c9sys.fs_list.map PFS.name).Nodup ∧ c9reg.name = "w" ∧ c9reg.live = false ∧
    ((proclikefs_register_filesystem c9sys (some "w") 3 4 true).2 = some c9reg.id ∧
      { c9reg with fs_flags := 3, get_sb := 4, live := true }
        ∈ (proclikefs_register_filesystem c9sys (some "w") 3 4 true).1.fs_list ∧
      ({ c9reg with fs_flags := 3, get_sb := 4, live := true } : PFS).id = c9reg.id ∧
      ({ c9reg with fs_flags := 3, get_sb := 4, live := true } : PFS).nsuper = c9reg.nsuper ∧
      ({ c9reg with fs_flags := 3, get_sb := 4, live := true } : PFS).pfo = c9reg.pfo ∧
      ({ c9reg with fs_flags := 3, get_sb := 4, live := true } : PFS).pio = c9reg.pio ∧
      ({ c9reg with fs_flags := 3, get_sb := 4, live := true } : PFS).live = true) := by
  exact ⟨by decide, rfl, rfl,
    C9_reinit_preserves_state c9sys "w" 3 4 true (by decide) c9reg
      (List.mem_cons_self c9reg []) rfl rfl⟩

/-- C10: `register` with a null name and `unregister` with a null
handle return immediately as exact no-ops: the former returns the
null handle with the state untouched (no lookup, no allocation, no
capability-loan change), the latter returns the state untouched. -/
theorem C10_null_arguments (sys : Sys) (fl : Int) (g : Nat) (a : Bool) :
    proclikefs_register_filesystem sys none fl g a = (sys, none) ∧
    proclikefs_unregister_filesystem sys none = sys :=
  ⟨rfl, rfl⟩
